import Mathlib

/-!
# Expense tracker (`main.cpp`): aggregation, validation and persistence

A shallow embedding of the classes `ExpenseManager`, `FileManager` and
`ExpenseTrackerUI` of `main.cpp`.

* The ledger `vector<pair<string, double>> expenses` is a `List (String × ℚ)`:
  an amount is the rational value of the stored `double`.
* Sums are `double` sums: every addition rounds to the nearest binary64 value
  (`Double.add`), and reading a number rounds it to a `double` too.
* Every member function is a function from the ledger before the call to an
  `Outcome`: what the call produced (a value or the exception it threw) and the
  ledger after the call.
* `size_t` arithmetic is unbounded `Nat` arithmetic; `boundary_no_wrap` below
  records that the 64-bit products of the partition loop do not wrap for any
  length a `vector` can have.
* Console output is left out, except where it is the value an operation
  produces (the total, the listed entries).
-/

namespace ExpenseTracker

/-! ## Data model -/

/-- An entry of `expenses`: category and amount (`pair<string, double>`). -/
abbrev Expense := String × ℚ

/-- The exceptions the program throws. -/
inductive Error where
  /-- The `invalid_argument` thrown by `addExpense`. -/
  | invalidArgument
  /-- The `out_of_range` thrown by `addExpense`. -/
  | outOfRange
  /-- The `runtime_error` of `calculateTotal` on an empty ledger. -/
  | noExpenses
  /-- The `runtime_error` of `saveExpensesToFile` when the file cannot be opened. -/
  | unableToSave
  deriving DecidableEq, Repr

/-- What a call did: the value it produced or the exception it threw, and the
ledger after the call. -/
structure Outcome (α : Type) where
  result : Except Error α
  expenses : List Expense

/-! ## Arithmetic on `double`

The type `double` is IEEE-754 binary64 with rounding to nearest, ties to even.
A finite `double` is given by its rational value; the two zeros are not told
apart. -/

/-- A value of type `double`. -/
inductive Double where
  /-- A finite value. -/
  | finite (value : ℚ)
  /-- Positive infinity. -/
  | posInf
  /-- Negative infinity. -/
  | negInf
  /-- Not a number. -/
  | nan
  deriving DecidableEq, Repr

/-- The power `2 ^ e` for an integer exponent. -/
def pow2 (e : ℤ) : ℚ :=
  if 0 ≤ e then ((2 ^ e.toNat : ℕ) : ℚ) else 1 / ((2 ^ (-e).toNat : ℕ) : ℚ)

/-- Binary logarithm of a natural number, rounded down, by repeated halving. -/
def log2Fuel : Nat → Nat → Nat
  | 0, _ => 0
  | fuel + 1, n => if n < 2 then 0 else log2Fuel fuel (n / 2) + 1

/-- Binary logarithm of a natural number, rounded down (0 for 0). -/
def log2 (n : Nat) : Nat := log2Fuel n n

/-- The exponent `e` with `2 ^ e ≤ a < 2 ^ (e + 1)`, for a positive rational. -/
def floorLog2 (a : ℚ) : ℤ :=
  let e0 : ℤ := (log2 a.num.natAbs : ℤ) - (log2 a.den : ℤ)
  if pow2 e0 ≤ a then e0 else e0 - 1

/-- Rounds a rational that is not negative to the nearest integer, a tie to
the even one. -/
def roundHalfEven (m : ℚ) : ℤ :=
  let f : ℤ := m.num / (m.den : ℤ)
  let r : ℚ := m - f
  if r < 1 / 2 then f
  else if 1 / 2 < r then f + 1
  else if f % 2 = 0 then f else f + 1

/-- Rounds a rational to the nearest `double`: 53 significant bits, exponents
from -1022 (below that the spacing stays `2 ^ -1074`), and infinity once the
rounded magnitude reaches `2 ^ 1024`. -/
def roundDouble (q : ℚ) : Double :=
  if q = 0 then .finite 0
  else
    let a := |q|
    let e := max (floorLog2 a) (-1022)
    let ulp := pow2 (e - 52)
    let r := (roundHalfEven (a / ulp) : ℚ) * ulp
    if pow2 1024 ≤ r then (if q < 0 then .negInf else .posInf)
    else .finite (if q < 0 then -r else r)

/-- The sum `x + y` of two `double` values. -/
def Double.add : Double → Double → Double
  | .finite a, .finite b => roundDouble (a + b)
  | .nan, _ => .nan
  | _, .nan => .nan
  | .posInf, .negInf => .nan
  | .negInf, .posInf => .nan
  | .posInf, _ => .posInf
  | _, .posInf => .posInf
  | .negInf, _ => .negInf
  | _, .negInf => .negInf

/-! ## `ExpenseManager::calculateTotal` -/

/-- The amount `expenses[i].second`. -/
def amountAt (expenses : List Expense) (i : Nat) : ℚ :=
  (expenses.getD i ("", 0)).2

/-- The lambda `sumExpenses`: `sum` starts at `0.0` and the loop
`for (i = start; i < end; ++i) sum = sum + expenses[i].second` runs over
`start, start + 1, ..., end - 1`, each addition a `double` addition; the
result is what it stores in `partialSums[threadIndex]`. -/
def sumExpenses (expenses : List Expense) (start stop : Nat) : Double :=
  (List.range' start (stop - start)).foldl
    (fun sum i => Double.add sum (.finite (amountAt expenses i))) (.finite 0)

/-- The lower boundary `start = i * expenses.size() / numThreads`. -/
def partitionStart (numThreads n i : Nat) : Nat := i * n / numThreads

/-- The upper boundary `end = (i + 1) * expenses.size() / numThreads`. -/
def partitionEnd (numThreads n i : Nat) : Nat := (i + 1) * n / numThreads

/-- Number of indices the worker `i` sums. -/
def partitionSize (numThreads n i : Nat) : Nat :=
  partitionEnd numThreads n i - partitionStart numThreads n i

/-- The vector `partialSums` once every thread has been joined: thread `i`
wrote `sumExpenses(i, start, end)` to slot `i` and to no other slot. -/
def partialSums (numThreads : Nat) (expenses : List Expense) : List Double :=
  (List.range numThreads).map fun i =>
    sumExpenses expenses
      (partitionStart numThreads expenses.length i)
      (partitionEnd numThreads expenses.length i)

/-- The body of `calculateTotal` with the thread count as a parameter: the
empty-ledger check, then `total = total + sum` over the partial sums in slot
order, starting from `0.0`. The value is the total that is printed. The unused
local `expensesPerThread` is left out; its division needs `numThreads ≥ 1`, as
the theorems below assume. -/
def calculateTotalWith (numThreads : Nat) (expenses : List Expense) : Outcome Double :=
  if expenses.isEmpty then
    { result := .error .noExpenses, expenses := expenses }
  else
    { result := .ok ((partialSums numThreads expenses).foldl
        (fun total sum => Double.add total sum) (.finite 0)),
      expenses := expenses }

/-- The constant `numThreads` of `calculateTotal`. -/
def numThreads : Nat := 4

/-- The member `ExpenseManager::calculateTotal`: the body run with 4 threads. -/
def calculateTotal (expenses : List Expense) : Outcome Double :=
  calculateTotalWith numThreads expenses

/-- The plain left-to-right sum of all amounts of a ledger, in `double`
arithmetic: `total = total + amount` entry after entry, starting from `0.0`. -/
def sequentialSum (expenses : List Expense) : Double :=
  expenses.foldl (fun total e => Double.add total (.finite e.2)) (.finite 0)

/-- The exact sum of all amounts of a ledger. -/
def exactSum (expenses : List Expense) : ℚ :=
  (expenses.map Prod.snd).sum

/-- The exact sum of the amounts at the indices `start, ..., stop - 1`. -/
def rangeSum (expenses : List Expense) (start stop : Nat) : ℚ :=
  ((List.range' start (stop - start)).map (amountAt expenses)).sum

/-- The index ranges handed to the workers, in worker order. -/
def partitions (numThreads n : Nat) : List (Nat × Nat) :=
  (List.range numThreads).map fun i =>
    (partitionStart numThreads n i, partitionEnd numThreads n i)

/-! ## Stream extraction (`operator>>`)

`stringstream >> double`, `ifstream >> string` and `ifstream >> double` are
library code. The operations below take the extraction of a `double` as a
parameter `readDouble`: it is given the unread characters and answers `none`
when the extraction fails (the stream turns false) or the value read together
with the characters left unread. `streamDouble` is the extraction for decimal
input, used to evaluate the operations on concrete strings. -/

/-- Result of extracting a `double`. -/
abbrev DoubleReader := List Char → Option (ℚ × List Char)

/-- The characters `isspace` accepts in the "C" locale. -/
def isSpace (c : Char) : Bool :=
  c = ' ' || c = Char.ofNat 9 || c = Char.ofNat 10 || c = Char.ofNat 11
    || c = Char.ofNat 12 || c = Char.ofNat 13

/-- Leading whitespace is skipped before a formatted extraction. -/
def skipSpace : List Char → List Char
  | [] => []
  | c :: cs => if isSpace c then skipSpace cs else c :: cs

/-- The value of a decimal digit. -/
def digitValue (c : Char) : Option Nat :=
  if '0' ≤ c ∧ c ≤ '9' then some (c.toNat - 48) else none

/-- Reads the longest run of digits: the number read so far, how many digits
were read, and the characters left. -/
def readDigits : List Char → Nat → Nat → Nat × Nat × List Char
  | [], value, count => (value, count, [])
  | c :: cs, value, count =>
    match digitValue c with
    | some d => readDigits cs (10 * value + d) (count + 1)
    | none => (value, count, c :: cs)

/-- Reads an optional sign: `true` for `-`. -/
def readSign : List Char → Bool × List Char
  | '-' :: cs => (true, cs)
  | '+' :: cs => (false, cs)
  | cs => (false, cs)

/-- Reads an optional exponent part `e[+-]digits`; a dangling `e` makes the
conversion fail. -/
def readExponent : List Char → Option (ℤ × List Char)
  | c :: cs =>
    if c = 'e' ∨ c = 'E' then
      let (neg, cs1) := readSign cs
      let (value, count, cs2) := readDigits cs1 0 0
      if count = 0 then none
      else some (if neg then -(value : ℤ) else (value : ℤ), cs2)
    else some (0, c :: cs)
  | [] => some (0, [])

/-- Reads a decimal numeral: whitespace is skipped, then the longest prefix
`[+-]digits[.digits][e[+-]digits]` is read; reading fails when that prefix has
no digit. The value is the exact value of the numeral; the characters after
the prefix stay unread. -/
def readDecimal (input : List Char) : Option (ℚ × List Char) :=
  let (neg, cs1) := readSign (skipSpace input)
  let (whole, wholeCount, cs2) := readDigits cs1 0 0
  let (mantissa, fracCount, cs3) :=
    match cs2 with
    | '.' :: cs =>
      let (m, k, rest) := readDigits cs whole 0
      (m, k, rest)
    | cs => (whole, 0, cs)
  if wholeCount + fracCount = 0 then none
  else
    match readExponent cs3 with
    | none => none
    | some (e, rest) =>
      let magnitude : ℚ :=
        if 0 ≤ e - (fracCount : ℤ) then (mantissa : ℚ) * ((10 ^ (e - fracCount).toNat : ℕ) : ℚ)
        else (mantissa : ℚ) / ((10 ^ (fracCount - e).toNat : ℕ) : ℚ)
      some (if neg then -magnitude else magnitude, rest)

/-- Extraction of a `double` from decimal input: the numeral read is rounded
to the nearest `double`; a numeral too large for a `double` makes the
extraction fail, one too small to tell from zero is read as zero. -/
def streamDouble : DoubleReader := fun input =>
  match readDecimal input with
  | none => none
  | some (value, rest) =>
    match roundDouble value with
    | .finite amount => some (amount, rest)
    | _ => none

/-- Extraction of a `string` (`file >> category`): whitespace is skipped, then
the characters up to the next whitespace are read; it fails at end of input. -/
def readToken (input : List Char) : Option (String × List Char) :=
  match skipSpace input with
  | [] => none
  | c :: cs =>
    let word := (c :: cs).takeWhile fun x => !isSpace x
    let rest := (c :: cs).dropWhile fun x => !isSpace x
    some (String.mk word, rest)

/-- A numeric string: the whole string, from its first character to its last,
is one decimal numeral. -/
def isNumericString (s : String) : Bool :=
  match s.toList with
  | [] => false
  | c :: cs =>
    !isSpace c &&
      match readDecimal (c :: cs) with
      | some (_, []) => true
      | _ => false

/-! ## `ExpenseManager::addExpense`, `displayExpenses` -/

/-- The member `ExpenseManager::addExpense`: the amount is extracted from
`stringstream ss(inputAmount)`; a failed extraction throws `invalid_argument`,
an amount below zero throws `out_of_range`, otherwise the entry is appended. -/
def addExpense (readDouble : DoubleReader) (expenses : List Expense)
    (category inputAmount : String) : Outcome Unit :=
  match readDouble inputAmount.toList with
  | none => { result := .error .invalidArgument, expenses := expenses }
  | some (amount, _) =>
    if amount < 0 then
      { result := .error .outOfRange, expenses := expenses }
    else
      { result := .ok (), expenses := expenses ++ [(category, amount)] }

/-- The member `ExpenseManager::displayExpenses`: the value is the list of entries printed
(none when the ledger is empty and the notice is printed instead). -/
def displayExpenses (expenses : List Expense) : Outcome (List Expense) :=
  if expenses.isEmpty then
    { result := .ok [], expenses := expenses }
  else
    { result := .ok (expenses.map fun expense => (expense.1, expense.2)),
      expenses := expenses }

/-! ## `FileManager` -/

/-- The member `FileManager::saveExpensesToFile`: `canOpen` tells whether
`file.is_open()`; the value is the list of lines written, one per entry. -/
def saveExpensesToFile (canOpen : Bool) (expenses : List Expense) :
    Outcome (List Expense) :=
  if canOpen then
    { result := .ok (expenses.map fun expense => (expense.1, expense.2)),
      expenses := expenses }
  else
    { result := .error .unableToSave, expenses := expenses }

/-- The loop `while (file >> category >> amount) expenses.emplace_back(...)`.
Every round takes at least one character from the input; `none` means the
rounds allowed by `fuel` were used up before the loop ended. -/
def loadLoop (readDouble : DoubleReader) :
    Nat → List Char → List Expense → Option (List Expense)
  | 0, _, _ => none
  | fuel + 1, input, expenses =>
    match readToken input with
    | none => some expenses
    | some (category, rest) =>
      match readDouble rest with
      | none => some expenses
      | some (amount, rest1) =>
        loadLoop readDouble fuel rest1 (expenses ++ [(category, amount)])

/-- The member `FileManager::loadExpensesFromFile`: `file` is the content of the file,
`none` when it cannot be opened. The result is `none` only if the loop did
not end within one round per character of the file, plus one. -/
def loadExpensesFromFile (readDouble : DoubleReader) (file : Option (List Char))
    (expenses : List Expense) : Option (Outcome Unit) :=
  match file with
  | none => some { result := .ok (), expenses := expenses }
  | some content =>
    (loadLoop readDouble (content.length + 1) content expenses).map fun loaded =>
      { result := .ok (), expenses := loaded }

/-- The ledger invariant: no entry has an amount below zero. -/
def AllNonneg (expenses : List Expense) : Prop :=
  ∀ e ∈ expenses, 0 ≤ e.2

/-! ## `ExpenseTrackerUI`: save and exit

The `choice == 4` branch of `menu` and the thread started by
`saveToFileAsync`, as two threads taking atomic steps on the shared flag
`atomic<bool> saveCompleted`. A schedule lists which thread moves next. -/

/-- Where the main thread stands in the `choice == 4` branch. -/
inductive MainPc where
  /-- About to run `saveCompleted = false` in `saveToFileAsync`. -/
  | resetFlag
  /-- About to construct and detach `saveThread`. -/
  | spawn
  /-- At the loop test `!saveCompleted.load()`. -/
  | poll
  /-- Inside `sleep_for(50ms)`. -/
  | sleep
  /-- After `break`: the menu loop is left. -/
  | exited
  deriving DecidableEq, Repr

/-- Where the thread `saveThread` stands. -/
inductive SaverPc where
  /-- The thread does not exist yet. -/
  | notStarted
  /-- About to call `saveExpensesToFile(filename)`. -/
  | save
  /-- The save returned; about to run `saveCompleted = true`. -/
  | setFlag
  /-- The lambda returned after setting the flag. -/
  | succeeded
  /-- The exception was caught and its message printed; the lambda returned. -/
  | failed
  deriving DecidableEq, Repr

/-- The states from which the persistence task moves no further. -/
def SaverPc.terminal : SaverPc → Bool
  | .succeeded => true
  | .failed => true
  | _ => false

/-- State of the two threads and the flag. -/
structure SaveState where
  saveCompleted : Bool
  main : MainPc
  saver : SaverPc
  deriving DecidableEq, Repr

/-- The threads a schedule chooses from. -/
inductive Thread where
  | main
  | saver
  deriving DecidableEq, Repr

/-- One step of the chosen thread; a thread that cannot move leaves the state
as it is. `canOpen` tells whether `saveExpensesToFile` can open the file. -/
def step (canOpen : Bool) (t : Thread) (s : SaveState) : SaveState :=
  match t, s.main, s.saver with
  | .main, .resetFlag, _ => { s with saveCompleted := false, main := .spawn }
  | .main, .spawn, _ => { s with main := .poll, saver := .save }
  | .main, .poll, _ =>
    if s.saveCompleted then { s with main := .exited } else { s with main := .sleep }
  | .main, .sleep, _ => { s with main := .poll }
  | .main, .exited, _ => s
  | .saver, _, .save =>
    if canOpen then { s with saver := .setFlag } else { s with saver := .failed }
  | .saver, _, .setFlag => { s with saveCompleted := true, saver := .succeeded }
  | .saver, _, _ => s

/-- The state after the steps of a schedule. -/
def run (canOpen : Bool) (schedule : List Thread) (s : SaveState) : SaveState :=
  schedule.foldl (fun s t => step canOpen t s) s

/-- The state when `choice == 4` is taken: `saveCompleted{ false }`, no
`saveThread` yet. -/
def initial : SaveState :=
  { saveCompleted := false, main := .resetFlag, saver := .notStarted }

/-! ## Partition boundaries -/

theorem partitionEnd_eq_start_succ (p n i : Nat) :
    partitionEnd p n i = partitionStart p n (i + 1) := rfl

theorem partitionStart_mono (p n : Nat) {i j : Nat} (h : i ≤ j) :
    partitionStart p n i ≤ partitionStart p n j :=
  Nat.div_le_div_right (Nat.mul_le_mul_right n h)

theorem partitionStart_le_end (p n i : Nat) :
    partitionStart p n i ≤ partitionEnd p n i :=
  partitionStart_mono p n (Nat.le_succ i)

theorem partitionStart_zero (p n : Nat) : partitionStart p n 0 = 0 := by
  simp [partitionStart]

theorem partitionStart_last (p n : Nat) (hp : 1 ≤ p) : partitionStart p n p = n := by
  simp only [partitionStart]
  exact Nat.mul_div_cancel_left n hp

/-- The products `i * expenses.size()` of the partition loop are computed in
64-bit `size_t`; they do not wrap as long as `numThreads * size < 2 ^ 64`,
which holds for `numThreads = 4` and every size a vector of these entries
can have. -/
theorem boundary_no_wrap (p n i : Nat) (hi : i ≤ p) (h : p * n < 2 ^ 64) :
    (i * n % 2 ^ 64) / p = partitionStart p n i := by
  have : i * n < 2 ^ 64 := lt_of_le_of_lt (Nat.mul_le_mul_right n hi) h
  rw [Nat.mod_eq_of_lt this]
  rfl

/-- Every partition holds `n / p` or `n / p + 1` indices. -/
theorem partitionSize_bounds (p n i : Nat) (hp : 1 ≤ p) :
    n / p ≤ partitionSize p n i ∧ partitionSize p n i ≤ n / p + 1 := by
  have h : (i + 1) * n = i * n + n := by ring
  have hdiv := Nat.add_div (a := i * n) (b := n) hp
  simp only [partitionSize, partitionEnd, partitionStart, h]
  generalize (i * n + n) / p = e at hdiv ⊢
  generalize i * n / p = a at hdiv ⊢
  generalize n / p = b at hdiv ⊢
  split at hdiv <;> constructor <;> omega

/-- The sizes of the first `m` partitions add up to the boundary `start_m`. -/
theorem sum_partitionSize (p n m : Nat) :
    ((List.range m).map (partitionSize p n)).sum = partitionStart p n m := by
  induction m with
  | zero => simp [partitionStart]
  | succ m ih =>
    rw [List.range_succ, List.map_append, List.sum_append, ih]
    have := partitionStart_le_end p n m
    simp only [List.map_cons, List.map_nil, List.sum_cons, List.sum_nil, partitionSize,
      partitionEnd_eq_start_succ] at *
    omega

/-- An index `k` lies in partition `i` exactly when
`i * n < (k + 1) * p ≤ (i + 1) * n`. -/
theorem mem_partition_iff (p n i k : Nat) (hp : 1 ≤ p) :
    (partitionStart p n i ≤ k ∧ k < partitionEnd p n i) ↔
      (i * n < (k + 1) * p ∧ (k + 1) * p ≤ (i + 1) * n) := by
  simp only [partitionStart, partitionEnd]
  have h1 : i * n / p ≤ k ↔ i * n < (k + 1) * p := by
    rw [← Nat.lt_succ_iff, Nat.div_lt_iff_lt_mul hp]
  have h2 : k < (i + 1) * n / p ↔ (k + 1) * p ≤ (i + 1) * n := by
    rw [← Nat.succ_le_iff, Nat.le_div_iff_mul_le hp]
  rw [h1, h2]

/-- When all the values of `f` below `m` are `0` or `1`, the zeros and the sum
together count `m`. -/
theorem count_zero_add_sum (f : Nat → Nat) (m : Nat) (h : ∀ i < m, f i ≤ 1) :
    ((List.range m).filter fun i => f i = 0).length + ((List.range m).map f).sum = m := by
  induction m with
  | zero => simp
  | succ m ih =>
    have ih1 := ih fun i hi => h i (Nat.lt_succ_of_lt hi)
    have hm := h m (Nat.lt_succ_self m)
    rw [List.range_succ, List.filter_append, List.map_append, List.sum_append,
      List.length_append]
    by_cases h0 : f m = 0
    · simp [h0] at *
      omega
    · have h1 : f m = 1 := by omega
      simp [h1] at *
      omega



/-! ## Rounding leaves small whole numbers alone -/

theorem log2Fuel_le (fuel n k : Nat) (h : n < 2 ^ (k + 1)) : log2Fuel fuel n ≤ k := by
  induction fuel generalizing n k with
  | zero => exact Nat.zero_le k
  | succ fuel ih =>
    unfold log2Fuel
    split
    · exact Nat.zero_le k
    · rename_i hn
      cases k with
      | zero => omega
      | succ k =>
        have : n / 2 < 2 ^ (k + 1) := by
          rw [Nat.div_lt_iff_lt_mul (by decide)]
          rw [Nat.pow_succ] at h
          exact h
        have := ih (n / 2) k this
        omega

theorem pow2_neg (t : Nat) : pow2 (-(t : ℤ)) = 1 / ((2 ^ t : ℕ) : ℚ) := by
  unfold pow2
  cases t with
  | zero => simp
  | succ t =>
    have h : ¬ (0 : ℤ) ≤ -((t + 1 : ℕ) : ℤ) := by omega
    rw [if_neg h]
    simp

theorem roundHalfEven_natCast (j : Nat) : roundHalfEven (j : ℚ) = j := by
  unfold roundHalfEven
  simp

theorem floorLog2_natCast_le (n k : Nat) (h : n < 2 ^ (k + 1)) :
    floorLog2 (n : ℚ) ≤ k := by
  unfold floorLog2
  have h1 : log2 n ≤ k := log2Fuel_le n n k h
  have h2 : log2 1 = 0 := by decide
  simp only [Rat.num_natCast, Rat.den_natCast, Int.natAbs_ofNat, h2]
  split <;> omega

theorem scale_up (n t : Nat) :
    ((n : ℕ) : ℚ) / (1 / ((2 ^ t : ℕ) : ℚ)) = ((n * 2 ^ t : ℕ) : ℚ) := by
  push_cast
  field_simp

theorem scale_down (n t : Nat) :
    (((n * 2 ^ t : ℕ) : ℤ) : ℚ) * (1 / ((2 ^ t : ℕ) : ℚ)) = ((n : ℕ) : ℚ) := by
  push_cast
  field_simp

/-- Rounding to `double` does not change a whole number below `2 ^ 53` in
magnitude. -/
theorem roundDouble_intCast (z : ℤ) (hz : z.natAbs < 2 ^ 53) :
    roundDouble (z : ℚ) = .finite (z : ℚ) := by
  by_cases h0 : z = 0
  · subst h0
    simp [roundDouble]
  have hq : (z : ℚ) ≠ 0 := by exact_mod_cast h0
  have habs : |(z : ℚ)| = ((z.natAbs : ℕ) : ℚ) := by
    rw [Nat.cast_natAbs, Int.cast_abs]
  unfold roundDouble
  rw [if_neg hq]
  simp only [habs]
  have hE : max (floorLog2 ((z.natAbs : ℕ) : ℚ)) (-1022) ≤ 52 :=
    max_le (floorLog2_natCast_le z.natAbs 52 hz) (by norm_num)
  obtain ⟨t, ht⟩ : ∃ t : ℕ,
      max (floorLog2 ((z.natAbs : ℕ) : ℚ)) (-1022) - 52 = -(t : ℤ) :=
    ⟨(52 - max (floorLog2 ((z.natAbs : ℕ) : ℚ)) (-1022)).toNat, by omega⟩
  rw [ht, pow2_neg]
  rw [scale_up, roundHalfEven_natCast, scale_down]
  have hsmall : ¬ pow2 1024 ≤ ((z.natAbs : ℕ) : ℚ) := by
    have h1 : pow2 1024 = ((2 ^ (1024 : ℤ).toNat : ℕ) : ℚ) := by
      unfold pow2
      rw [if_pos (by norm_num)]
    rw [h1, not_le]
    have h2 : z.natAbs < 2 ^ (1024 : ℤ).toNat :=
      lt_of_lt_of_le hz (Nat.pow_le_pow_right (by decide) (by decide))
    exact Nat.cast_lt.mpr h2
  rw [if_neg hsmall, ← habs]
  congr 1
  split
  · rename_i hneg
    rw [abs_of_neg hneg, neg_neg]
  · rename_i hneg
    rw [abs_of_nonneg (not_lt.mp hneg)]

/-! ## Summation -/

theorem partitionStart_le (p n i : Nat) (hp : 1 ≤ p) (hi : i ≤ p) :
    partitionStart p n i ≤ n := by
  have h := partitionStart_mono p n hi
  rwa [partitionStart_last p n hp] at h

theorem rangeSum_self (L : List Expense) (s : Nat) : rangeSum L s s = 0 := by
  simp [rangeSum]

theorem rangeSum_single (L : List Expense) (k : Nat) :
    rangeSum L k (k + 1) = amountAt L k := by
  simp [rangeSum]

theorem rangeSum_all (L : List Expense) : rangeSum L 0 L.length = exactSum L := by
  have : (List.range L.length).map (amountAt L) = L.map Prod.snd := by
    apply List.ext_getElem
    · simp
    · intro i h1 h2
      have hi : i < L.length := by simpa using h2
      simp [amountAt, hi]
  rw [rangeSum, exactSum, Nat.sub_zero, ← List.range_eq_range', this]

/-- The left-to-right sum is the loop of `sumExpenses` run over the whole
ledger. -/
theorem sequentialSum_eq_sumExpenses (L : List Expense) :
    sequentialSum L = sumExpenses L 0 L.length := by
  have hmap : (List.range L.length).map (fun i => L.getD i ("", 0)) = L := by
    apply List.ext_getElem
    · simp
    · intro i h1 h2
      simp [h2]
  have h : sequentialSum L
      = ((List.range L.length).map fun i => L.getD i ("", 0)).foldl
          (fun total e => Double.add total (.finite e.2)) (.finite 0) := by
    rw [hmap]
    rfl
  rw [h, List.foldl_map, sumExpenses, Nat.sub_zero, ← List.range_eq_range']
  rfl

/-- When the additions of adjacent range sums are exact, the loop of
`sumExpenses` computes the exact sum of its range. -/
theorem sumExpenses_exact (L : List Expense)
    (hexact : ∀ s k e, s ≤ k → k ≤ e → e ≤ L.length →
      Double.add (.finite (rangeSum L s k)) (.finite (rangeSum L k e))
        = .finite (rangeSum L s e))
    {start stop : Nat} (h1 : start ≤ stop) (h2 : stop ≤ L.length) :
    sumExpenses L start stop = .finite (rangeSum L start stop) := by
  have key : ∀ m, start + m ≤ L.length →
      (List.range' start m).foldl
          (fun sum i => Double.add sum (.finite (amountAt L i))) (.finite 0)
        = .finite (rangeSum L start (start + m)) := by
    intro m
    induction m with
    | zero =>
      intro _
      simp [rangeSum_self]
    | succ m ih =>
      intro hm
      rw [List.range'_1_concat, List.foldl_append, ih (by omega)]
      simp only [List.foldl_cons, List.foldl_nil]
      rw [← rangeSum_single L (start + m)]
      exact hexact start (start + m) (start + m + 1) (by omega) (by omega) (by omega)
  have := key (stop - start) (by omega)
  rw [Nat.add_sub_cancel' h1] at this
  exact this

/-- When the additions of adjacent range sums are exact, adding up the first
`m` partial sums gives the exact sum below the boundary `start_m`. -/
theorem partialSums_exact (L : List Expense) (p : Nat) (hp : 1 ≤ p)
    (hexact : ∀ s k e, s ≤ k → k ≤ e → e ≤ L.length →
      Double.add (.finite (rangeSum L s k)) (.finite (rangeSum L k e))
        = .finite (rangeSum L s e))
    (m : Nat) (hm : m ≤ p) :
    ((List.range m).map fun i =>
        sumExpenses L (partitionStart p L.length i) (partitionEnd p L.length i)).foldl
        (fun total sum => Double.add total sum) (.finite 0)
      = .finite (rangeSum L 0 (partitionStart p L.length m)) := by
  induction m with
  | zero => simp [partitionStart, rangeSum_self]
  | succ m ih =>
    rw [List.range_succ, List.map_append, List.foldl_append, ih (by omega)]
    simp only [List.map_cons, List.map_nil, List.foldl_cons, List.foldl_nil]
    have hle : partitionEnd p L.length m ≤ L.length :=
      partitionStart_le p L.length (m + 1) hp hm
    rw [sumExpenses_exact L hexact (partitionStart_le_end p L.length m) hle]
    exact hexact 0 _ _ (Nat.zero_le _) (partitionStart_le_end p L.length m) hle

theorem rangeSum_add (L : List Expense) {s k e : Nat} (h1 : s ≤ k) (h2 : k ≤ e) :
    rangeSum L s k + rangeSum L k e = rangeSum L s e := by
  have h := List.range'_append s (k - s) (e - k) 1
  simp only [Nat.one_mul] at h
  rw [Nat.add_sub_cancel' h1, Nat.sub_add_sub_cancel h2 h1] at h
  rw [rangeSum, rangeSum, rangeSum, ← h, List.map_append, List.sum_append]

/-- Amounts of the ledger in which every amount is replaced by its magnitude. -/
theorem amountAt_abs (L : List Expense) (i : Nat) :
    amountAt (L.map fun e => (e.1, |e.2|)) i = |amountAt L i| := by
  unfold amountAt
  have hd : (("", 0) : Expense) = (fun e : Expense => (e.1, |e.2|)) ("", 0) := by simp
  rw [hd, List.getD_map]
  simp

theorem abs_sum_map_le {ι : Type} (f : ι → ℚ) (l : List ι) :
    |(l.map f).sum| ≤ (l.map fun i => |f i|).sum := by
  induction l with
  | nil => simp
  | cons x l ih =>
    simp only [List.map_cons, List.sum_cons]
    exact le_trans (abs_add _ _) (add_le_add_left ih _)

theorem rangeSum_abs_le (L : List Expense) (s e : Nat) :
    |rangeSum L s e| ≤ rangeSum (L.map fun e => (e.1, |e.2|)) s e := by
  unfold rangeSum
  refine le_trans (abs_sum_map_le _ _) (le_of_eq ?_)
  congr 1
  apply List.map_congr_left
  intro i _
  exact (amountAt_abs L i).symm

theorem rangeSum_nonneg_of_abs (L : List Expense) (s e : Nat) :
    0 ≤ rangeSum (L.map fun e => (e.1, |e.2|)) s e :=
  le_trans (abs_nonneg _) (rangeSum_abs_le L s e)

/-- The magnitude of a range sum is at most the sum of all magnitudes. -/
theorem rangeSum_abs_le_total (L : List Expense) {s e : Nat} (h1 : s ≤ e)
    (h2 : e ≤ L.length) :
    |rangeSum L s e| ≤ (L.map fun e => |e.2|).sum := by
  have hall := rangeSum_all (L.map fun e => (e.1, |e.2|))
  rw [List.length_map,
    ← rangeSum_add _ (Nat.zero_le s) (le_trans h1 h2), ← rangeSum_add _ h1 h2] at hall
  have ha := rangeSum_nonneg_of_abs L 0 s
  have hb := rangeSum_nonneg_of_abs L e L.length
  have hc := rangeSum_abs_le L s e
  have hsum : exactSum (L.map fun e => (e.1, |e.2|)) = (L.map fun e => |e.2|).sum := by
    simp [exactSum, List.map_map, Function.comp_def]
  rw [← hsum, ← hall]
  linarith

theorem sum_whole (l : List ℚ) (h : ∀ x ∈ l, ∃ z : ℤ, x = z) : ∃ z : ℤ, l.sum = z := by
  induction l with
  | nil => exact ⟨0, by simp⟩
  | cons x l ih =>
    obtain ⟨a, ha⟩ := h x (List.mem_cons_self x l)
    obtain ⟨b, hb⟩ := ih fun y hy => h y (List.mem_cons_of_mem x hy)
    exact ⟨a + b, by simp [ha, hb]⟩

theorem rangeSum_whole (L : List Expense) (hwhole : ∀ x ∈ L, ∃ z : ℤ, x.2 = z)
    (s e : Nat) : ∃ z : ℤ, rangeSum L s e = z := by
  apply sum_whole
  intro x hx
  obtain ⟨i, _, rfl⟩ := List.mem_map.mp hx
  unfold amountAt
  by_cases hi : i < L.length
  · rw [List.getD_eq_getElem L _ hi]
    exact hwhole _ (List.getElem_mem hi)
  · rw [List.getD_eq_default L _ (not_lt.mp hi)]
    exact ⟨0, by simp⟩

/-- In a ledger of whole amounts whose magnitudes add up to less than
`2 ^ 53`, every `double` addition of the sums of two adjacent index ranges is
exact. -/
theorem exact_of_whole_amounts (L : List Expense)
    (hwhole : ∀ x ∈ L, ∃ z : ℤ, x.2 = z)
    (hsmall : (L.map fun e => |e.2|).sum < 2 ^ 53) :
    ∀ s k e, s ≤ k → k ≤ e → e ≤ L.length →
      Double.add (.finite (rangeSum L s k)) (.finite (rangeSum L k e))
        = .finite (rangeSum L s e) := by
  intro s k e h1 h2 h3
  show roundDouble (rangeSum L s k + rangeSum L k e) = _
  rw [rangeSum_add L h1 h2]
  obtain ⟨z, hz⟩ := rangeSum_whole L hwhole s e
  have hb := rangeSum_abs_le_total L (le_trans h1 h2) h3
  rw [hz] at hb ⊢
  apply roundDouble_intCast
  have hlt : |(z : ℚ)| < 2 ^ 53 := lt_of_le_of_lt hb hsmall
  rw [← Int.cast_abs, ← Nat.cast_natAbs] at hlt
  exact_mod_cast hlt

/-- When the additions of adjacent range sums are exact, the left-to-right
sum is the exact sum. -/
theorem sequentialSum_of_exact (L : List Expense)
    (hexact : ∀ s k e, s ≤ k → k ≤ e → e ≤ L.length →
      Double.add (.finite (rangeSum L s k)) (.finite (rangeSum L k e))
        = .finite (rangeSum L s e)) :
    sequentialSum L = .finite (exactSum L) := by
  rw [sequentialSum_eq_sumExpenses,
    sumExpenses_exact L hexact (Nat.zero_le _) (Nat.le_refl _), rangeSum_all]

/-- When the additions of adjacent range sums are exact, the total over `q`
partitions is the exact sum. -/
theorem calculateTotalWith_of_exact (L : List Expense) (q : Nat) (hL : L ≠ [])
    (hq : 1 ≤ q)
    (hexact : ∀ s k e, s ≤ k → k ≤ e → e ≤ L.length →
      Double.add (.finite (rangeSum L s k)) (.finite (rangeSum L k e))
        = .finite (rangeSum L s e)) :
    (calculateTotalWith q L).result = .ok (.finite (exactSum L)) := by
  have hne : L.isEmpty = false := by
    cases L with
    | nil => exact absurd rfl hL
    | cons x xs => rfl
  have htotal := partialSums_exact L q hq hexact q (Nat.le_refl q)
  rw [partitionStart_last q _ hq, rangeSum_all] at htotal
  simp only [calculateTotalWith, hne, partialSums, htotal]
  rfl

/-- For a non-empty ledger of whole amounts whose magnitudes add up to less
than `2 ^ 53`, the total over any `p ≥ 1` partitions and the left-to-right sum
are both the exact sum. -/
theorem calculateTotal_whole_amounts (L : List Expense) (p : Nat) (hL : L ≠ [])
    (hp : 1 ≤ p) (hwhole : ∀ x ∈ L, ∃ z : ℤ, x.2 = z)
    (hsmall : (L.map fun e => |e.2|).sum < 2 ^ 53) :
    (calculateTotalWith p L).result = .ok (.finite (exactSum L)) ∧
      sequentialSum L = .finite (exactSum L) :=
  ⟨calculateTotalWith_of_exact L p hL hp (exact_of_whole_amounts L hwhole hsmall),
    sequentialSum_of_exact L (exact_of_whole_amounts L hwhole hsmall)⟩

/-! ## Claims about `calculateTotal` -/

/-- C2: for every length `n` and every partition count `p ≥ 1` the ranges
`[i*n/p, (i+1)*n/p)` start at 0, end at `n`, are ordered and adjacent, their
sizes add up to `n`, and every index below `n` lies in exactly one of them. -/
theorem partition_ranges_cover (n p : Nat) (hp : 1 ≤ p) :
    partitionStart p n 0 = 0 ∧
      partitionEnd p n (p - 1) = n ∧
      (∀ i, i < p → partitionStart p n i ≤ partitionEnd p n i) ∧
      (∀ i, i + 1 < p → partitionEnd p n i = partitionStart p n (i + 1)) ∧
      ((List.range p).map (partitionSize p n)).sum = n ∧
      (∀ k, k < n →
        ∃! i, i < p ∧ partitionStart p n i ≤ k ∧ k < partitionEnd p n i) := by
  refine ⟨partitionStart_zero p n, ?_, fun i _ => partitionStart_le_end p n i,
    fun i _ => rfl, ?_, ?_⟩
  · rw [partitionEnd_eq_start_succ, Nat.sub_add_cancel hp, partitionStart_last p n hp]
  · rw [sum_partitionSize, partitionStart_last p n hp]
  · intro k hk
    have hn : 0 < n := by omega
    refine ⟨((k + 1) * p - 1) / n, ⟨?_, ?_⟩, ?_⟩
    · rw [Nat.div_lt_iff_lt_mul hn]
      have : (k + 1) * p ≤ n * p := Nat.mul_le_mul_right p hk
      have : 0 < (k + 1) * p := Nat.mul_pos (Nat.succ_pos k) hp
      rw [Nat.mul_comm p n]
      omega
    · rw [mem_partition_iff p n _ k hp]
      have h1 : ((k + 1) * p - 1) / n * n ≤ (k + 1) * p - 1 := Nat.div_mul_le_self _ _
      have h2 : (k + 1) * p - 1 < (((k + 1) * p - 1) / n + 1) * n :=
        Nat.lt_of_lt_of_eq (Nat.lt_div_mul_add hn) (Nat.succ_mul _ _).symm
      have : 0 < (k + 1) * p := Nat.mul_pos (Nat.succ_pos k) hp
      constructor <;> omega
    · rintro j ⟨_, hj⟩
      rw [mem_partition_iff p n j k hp] at hj
      symm
      apply Nat.div_eq_of_lt_le
      · have : 0 < (k + 1) * p := Nat.mul_pos (Nat.succ_pos k) hp
        omega
      · have : 0 < (k + 1) * p := Nat.mul_pos (Nat.succ_pos k) hp
        show (k + 1) * p - 1 < (j + 1) * n
        omega

theorem partition_ranges_cover_witness :
    1 ≤ 4 ∧ partitions 4 3 = [(0, 0), (0, 1), (1, 2), (2, 3)] ∧
      ((List.range 4).map (partitionSize 4 3)).sum = 3 ∧
      (∀ k, k < 3 →
        ∃! i, i < 4 ∧ partitionStart 4 3 i ≤ k ∧ k < partitionEnd 4 3 i) :=
  ⟨by decide, by decide, (partition_ranges_cover 3 4 (by decide)).2.2.2.2.1,
    (partition_ranges_cover 3 4 (by decide)).2.2.2.2.2⟩

/-- C3: for every length `n` and every partition count `p ≥ 1` any two
partition sizes differ by at most one; when `n < p` every partition has size
0 or 1 and exactly `p - n` partitions are empty. -/
theorem partition_sizes_balanced (n p : Nat) (hp : 1 ≤ p) :
    (∀ i j, i < p → j < p →
        |(partitionSize p n i : ℤ) - (partitionSize p n j : ℤ)| ≤ 1) ∧
      (n < p →
        (∀ i, i < p → partitionSize p n i = 0 ∨ partitionSize p n i = 1) ∧
          ((List.range p).filter fun i => partitionSize p n i = 0).length = p - n) := by
  constructor
  · intro i j _ _
    have hi := partitionSize_bounds p n i hp
    have hj := partitionSize_bounds p n j hp
    rw [abs_le]
    constructor <;> omega
  · intro hn
    have hsmall : ∀ i, partitionSize p n i ≤ 1 := by
      intro i
      have := (partitionSize_bounds p n i hp).2
      rwa [Nat.div_eq_of_lt hn, Nat.zero_add] at this
    refine ⟨fun i _ => ?_, ?_⟩
    · have := hsmall i
      omega
    · have hcount := count_zero_add_sum (partitionSize p n) p fun i _ => hsmall i
      rw [sum_partitionSize, partitionStart_last p n hp] at hcount
      omega

theorem partition_sizes_balanced_witness :
    1 ≤ 4 ∧ 3 < 4 ∧
      (List.range 4).map (partitionSize 4 3) = [0, 1, 1, 1] ∧
      ((List.range 4).filter fun i => partitionSize 4 3 i = 0).length = 4 - 3 ∧
      (∀ i j, i < 4 → j < 4 →
        |(partitionSize 4 3 i : ℤ) - (partitionSize 4 3 j : ℤ)| ≤ 1) :=
  ⟨by decide, by decide, by decide,
    ((partition_sizes_balanced 3 4 (by decide)).2 (by decide)).2,
    (partition_sizes_balanced 3 4 (by decide)).1⟩

/-- C4: `calculateTotal` throws the empty-ledger `runtime_error` on the empty
ledger, whatever the partition count, and produces no total; on a non-empty
ledger it does not throw but produces a total. -/
theorem calculateTotal_fails_iff_empty (p : Nat) (L : List Expense) :
    (calculateTotalWith p []).result = .error .noExpenses ∧
      (calculateTotal []).result = .error .noExpenses ∧
      (L ≠ [] → 1 ≤ p →
        (∃ total, (calculateTotalWith p L).result = .ok total) ∧
          (∃ total, (calculateTotal L).result = .ok total)) := by
  refine ⟨rfl, rfl, fun hL _ => ?_⟩
  cases L with
  | nil => exact absurd rfl hL
  | cons x xs => exact ⟨⟨_, rfl⟩, ⟨_, rfl⟩⟩

theorem calculateTotal_fails_iff_empty_witness :
    (calculateTotalWith 7 []).result = .error .noExpenses ∧
      ([("food", 25 / 2)] : List Expense) ≠ [] ∧ 1 ≤ 7 ∧
      (∃ total, (calculateTotal [("food", 25 / 2)]).result = .ok total) :=
  ⟨(calculateTotal_fails_iff_empty 7 [("food", 25 / 2)]).1, by simp, by decide,
    ((calculateTotal_fails_iff_empty 7 [("food", 25 / 2)]).2.2 (by simp) (by decide)).2⟩

/-! ## Claims about `addExpense` and `loadExpensesFromFile` -/

theorem streamDouble_stops :
    streamDouble "12$".toList = some (12, ['$']) := by decide!

theorem streamDouble_negative :
    streamDouble "-5".toList = some (-5, []) := by decide!

theorem streamDouble_fraction :
    streamDouble "12.5".toList = some (25 / 2, []) := by decide!

theorem streamDouble_letters :
    streamDouble "abc".toList = none := by decide!

theorem streamDouble_separator :
    streamDouble "1,000".toList = some (1, [',', '0', '0', '0']) := by decide!

/-- A numeral too large for a `double` makes the extraction fail. -/
theorem streamDouble_overflow :
    streamDouble "-1e400".toList = none := by decide!

/-- A numeral too small to tell from zero is read as zero. -/
theorem streamDouble_underflow :
    streamDouble "-1e-400".toList = some (0, []) := by decide!

theorem addExpense_of_none {readDouble : DoubleReader} {s : String}
    (L : List Expense) (c : String) (h : readDouble s.toList = none) :
    addExpense readDouble L c s = { result := .error .invalidArgument, expenses := L } := by
  unfold addExpense
  rw [h]

theorem addExpense_of_neg {readDouble : DoubleReader} {s : String} {a : ℚ}
    {rest : List Char} (L : List Expense) (c : String)
    (h : readDouble s.toList = some (a, rest)) (ha : a < 0) :
    addExpense readDouble L c s = { result := .error .outOfRange, expenses := L } := by
  unfold addExpense
  rw [h]
  simp [ha]

theorem addExpense_of_nonneg {readDouble : DoubleReader} {s : String} {a : ℚ}
    {rest : List Char} (L : List Expense) (c : String)
    (h : readDouble s.toList = some (a, rest)) (ha : 0 ≤ a) :
    addExpense readDouble L c s = { result := .ok (), expenses := L ++ [(c, a)] } := by
  unfold addExpense
  rw [h]
  simp [not_lt.mpr ha]

/-- The ledger invariant is kept by `addExpense`, whatever the extraction does. -/
theorem addExpense_keeps_nonneg (readDouble : DoubleReader) (L : List Expense)
    (c s : String) (h : AllNonneg L) :
    AllNonneg (addExpense readDouble L c s).expenses := by
  unfold addExpense
  split
  · exact h
  · split
    · exact h
    · rename_i amount _ _ hneg
      intro e he
      rcases List.mem_append.mp he with he | he
      · exact h e he
      · rw [List.mem_singleton.mp he]
        exact not_lt.mp hneg

/-- C6: a file holding the line `food -5` is loaded into the empty ledger as
the entry `("food", -5)`: `loadExpensesFromFile` appends what it reads without
the check `addExpense` makes, and the loaded ledger breaks the invariant. -/
theorem load_appends_negative_amount :
    (loadExpensesFromFile streamDouble (some "food -5".toList) []).map (·.expenses)
        = some [("food", -5)] ∧
      ¬ AllNonneg [("food", -5)] ∧
      (addExpense streamDouble [] "food" "-5").result = .error .outOfRange := by
  refine ⟨?_, ?_, ?_⟩
  · decide!
  · intro h
    have := h ("food", -5) (List.mem_singleton.mpr rfl)
    norm_num at this
  · rw [addExpense_of_neg [] "food" streamDouble_negative (by norm_num)]

/-- C7: the strings `12$` and `1,000` are not numeric strings, yet
`addExpense` does not throw `invalid_argument` for them: it takes the leading
number as the amount and appends the entries `("food", 12)` and
`("food", 1)`. -/
theorem addExpense_accepts_trailing_text :
    isNumericString "12$" = false ∧
      (addExpense streamDouble [] "food" "12$").result = .ok () ∧
      (addExpense streamDouble [] "food" "12$").expenses = [("food", 12)] ∧
      isNumericString "1,000" = false ∧
      (addExpense streamDouble [] "food" "1,000").result = .ok () ∧
      (addExpense streamDouble [] "food" "1,000").expenses = [("food", 1)] := by
  refine ⟨by decide!, ?_, ?_, by decide!, ?_, ?_⟩
  · rw [addExpense_of_nonneg [] "food" streamDouble_stops (by norm_num)]
  · rw [addExpense_of_nonneg [] "food" streamDouble_stops (by norm_num)]
    rfl
  · rw [addExpense_of_nonneg [] "food" streamDouble_separator (by norm_num)]
  · rw [addExpense_of_nonneg [] "food" streamDouble_separator (by norm_num)]
    rfl

/-- Whatever the extraction does, `addExpense` throws `invalid_argument` when
the extraction fails and `out_of_range` when the number extracted is below
zero, and leaves the ledger as it was in both cases. -/
theorem addExpense_rejects (readDouble : DoubleReader) (L : List Expense) (c s : String) :
    (readDouble s.toList = none →
        (addExpense readDouble L c s).result = .error .invalidArgument ∧
          (addExpense readDouble L c s).expenses = L) ∧
      (∀ a rest, readDouble s.toList = some (a, rest) → a < 0 →
        (addExpense readDouble L c s).result = .error .outOfRange ∧
          (addExpense readDouble L c s).expenses = L) := by
  refine ⟨fun h => ?_, fun a rest h ha => ?_⟩
  · rw [addExpense_of_none L c h]
    exact ⟨rfl, rfl⟩
  · rw [addExpense_of_neg L c h ha]
    exact ⟨rfl, rfl⟩

/-- C9: when the file cannot be opened `loadExpensesFromFile` throws nothing
and leaves the ledger as it was; a fresh ledger is still empty afterwards. -/
theorem load_missing_file (readDouble : DoubleReader) (L : List Expense) :
    (loadExpensesFromFile readDouble none L).map (·.result) = some (.ok ()) ∧
      (loadExpensesFromFile readDouble none L).map (·.expenses) = some L ∧
      (loadExpensesFromFile readDouble none []).map (·.expenses) = some [] :=
  ⟨rfl, rfl, rfl⟩

/-- C10: when `addExpense` accepts the amount string (a number `a`, not below
zero, is extracted), the ledger afterwards is the ledger before followed by
the one entry `(c, a)`: one longer, every earlier entry in its place; and
`calculateTotal`, `displayExpenses` and `saveExpensesToFile` leave the ledger
as it was. -/
theorem ledger_append_only (readDouble : DoubleReader) (L : List Expense) (c s : String)
    (a : ℚ) (rest : List Char) (h : readDouble s.toList = some (a, rest)) (ha : 0 ≤ a) :
    (addExpense readDouble L c s).result = .ok () ∧
      (addExpense readDouble L c s).expenses = L ++ [(c, a)] ∧
      (addExpense readDouble L c s).expenses.length = L.length + 1 ∧
      (∀ i, i < L.length → (addExpense readDouble L c s).expenses[i]? = L[i]?) ∧
      (calculateTotal L).expenses = L ∧
      (displayExpenses L).expenses = L ∧
      (∀ canOpen, (saveExpensesToFile canOpen L).expenses = L) := by
  have hadd : addExpense readDouble L c s
      = { result := .ok (), expenses := L ++ [(c, a)] } :=
    addExpense_of_nonneg L c h ha
  refine ⟨by rw [hadd], by rw [hadd], by simp [hadd], fun i hi => ?_, ?_, ?_, fun canOpen => ?_⟩
  · rw [hadd]
    exact List.getElem?_append_left hi
  · unfold calculateTotal calculateTotalWith
    split <;> rfl
  · unfold displayExpenses
    split <;> rfl
  · unfold saveExpensesToFile
    split <;> rfl

theorem ledger_append_only_witness :
    streamDouble "12.5".toList = some (25 / 2, []) ∧ (0 : ℚ) ≤ 25 / 2 ∧
      (addExpense streamDouble [("rent", 800)] "food" "12.5").expenses
        = [("rent", 800), ("food", 25 / 2)] :=
  ⟨streamDouble_fraction, by norm_num,
    (ledger_append_only streamDouble [("rent", 800)] "food" "12.5" (25 / 2) []
      streamDouble_fraction (by norm_num)).2.1⟩

/-! ## Claims about save and exit -/

/-- A property kept by every step holds after every schedule. -/
theorem run_preserves (canOpen : Bool) (P : SaveState → Prop)
    (hstep : ∀ t s, P s → P (step canOpen t s)) (schedule : List Thread) (s : SaveState)
    (hs : P s) : P (run canOpen schedule s) := by
  induction schedule generalizing s with
  | nil => exact hs
  | cons t ts ih => exact ih (step canOpen t s) (hstep t s hs)

/-- While the file cannot be opened no step sets the flag or leaves the loop. -/
theorem step_unwritable (t : Thread) (s : SaveState)
    (h : s.saveCompleted = false ∧ s.main ≠ .exited ∧ s.saver ≠ .setFlag ∧
      s.saver ≠ .succeeded) :
    (step false t s).saveCompleted = false ∧ (step false t s).main ≠ .exited ∧
      (step false t s).saver ≠ .setFlag ∧ (step false t s).saver ≠ .succeeded := by
  obtain ⟨flag, m, sv⟩ := s
  obtain ⟨h1, h2, h3, h4⟩ := h
  simp only at h1 h2 h3 h4
  subst h1
  cases t <;> cases m <;> cases sv <;> simp_all [step]

/-- The flag is only ever true once the saver has succeeded, and the loop is
only ever left with the flag true. -/
theorem step_exit_invariant (canOpen : Bool) (t : Thread) (s : SaveState)
    (h : (s.main = .resetFlag ∨ s.main = .spawn → s.saver = .notStarted) ∧
      (s.saveCompleted = true →
        s.saver = .succeeded ∧ s.main ≠ .resetFlag ∧ s.main ≠ .spawn) ∧
      (s.main = .exited → s.saveCompleted = true)) :
    ((step canOpen t s).main = .resetFlag ∨ (step canOpen t s).main = .spawn →
        (step canOpen t s).saver = .notStarted) ∧
      ((step canOpen t s).saveCompleted = true →
        (step canOpen t s).saver = .succeeded ∧ (step canOpen t s).main ≠ .resetFlag ∧
          (step canOpen t s).main ≠ .spawn) ∧
      ((step canOpen t s).main = .exited → (step canOpen t s).saveCompleted = true) := by
  obtain ⟨flag, m, sv⟩ := s
  cases canOpen <;> cases flag <;> cases t <;> cases m <;> cases sv <;> simp_all [step]

/-- C5: with a file that cannot be opened the saver thread ends in `failed`
and the flag `saveCompleted` is never set: under every schedule the flag is
false and the main thread has not left the wait loop. -/
theorem unwritable_save_never_completes (schedule : List Thread) :
    (run false [.main, .main, .saver] initial).saver = .failed ∧
      (run false schedule initial).saveCompleted = false ∧
      (run false schedule initial).main ≠ .exited := by
  refine ⟨by decide, ?_⟩
  have h := run_preserves false
    (fun s => s.saveCompleted = false ∧ s.main ≠ .exited ∧ s.saver ≠ .setFlag ∧
      s.saver ≠ .succeeded)
    step_unwritable schedule initial (by decide)
  exact ⟨h.1, h.2.1⟩

/-- C8: under every schedule, and whether or not the file can be opened, the
main thread has left the wait loop only in states where the flag
`saveCompleted` is true and the saver thread has reached a terminal state. -/
theorem exit_only_after_completion (canOpen : Bool) (schedule : List Thread)
    (h : (run canOpen schedule initial).main = .exited) :
    (run canOpen schedule initial).saveCompleted = true ∧
      (run canOpen schedule initial).saver.terminal = true := by
  have inv := run_preserves canOpen
    (fun s => (s.main = .resetFlag ∨ s.main = .spawn → s.saver = .notStarted) ∧
      (s.saveCompleted = true →
        s.saver = .succeeded ∧ s.main ≠ .resetFlag ∧ s.main ≠ .spawn) ∧
      (s.main = .exited → s.saveCompleted = true))
    (step_exit_invariant canOpen) schedule initial (by decide)
  have hflag := inv.2.2 h
  refine ⟨hflag, ?_⟩
  rw [(inv.2.1 hflag).1]
  rfl

theorem exit_only_after_completion_witness :
    (run true [.main, .main, .saver, .saver, .main] initial).main = .exited ∧
      (run true [.main, .main, .saver, .saver, .main] initial).saveCompleted = true ∧
      (run true [.main, .main, .saver, .saver, .main] initial).saver.terminal = true :=
  ⟨by decide,
    exit_only_after_completion true [.main, .main, .saver, .saver, .main] (by decide)⟩

end ExpenseTracker
